import Mathlib

/-!
Verification of the HTTP CONNECT proxy client handshake core: the request
encoder (`flow/request.rs`), the incremental response receiver (`flow.rs`),
the outcome data model (`flow/handshake_outcome.rs`) and the byte-replay
stream decorator (`prepend_io_stream.rs`), shallowly embedded in Lean.

Bytes are modelled as natural numbers, byte buffers as `List Nat`.  The
transport is modelled as the sequence of chunks its successive reads
deliver (an exhausted sequence yields zero-length reads, i.e. end of
stream).  The non-terminating accumulation loop is embedded with explicit
fuel: a `none` result for every fuel value is non-termination.
-/

abbrev Byte := Nat
abbrev Chunk := List Byte

/-- ASCII bytes of a string literal. -/
def asciiBytes (s : String) : List Byte := s.toList.map Char.toNat

/-- Decimal rendering of a number, as produced by the display formatter the
encoder uses for the port. -/
def decimalBytes (n : Nat) : List Byte := (Nat.toDigits 10 n).map Char.toNat

/-! ## Head tokenizer

Modelled from the spec: the low-level HTTP head tokenizer is an external
collaborator consumed through a narrow interface (section 6): it takes a
byte slice and reports *incomplete*, *complete at offset `c`* with a parsed
status code, reason phrase and header list, or *malformed*.  The model
locates the first head terminator (CRLF CRLF) and then parses the standard
HTTP/1.x status line and header lines of the head region, honouring the
caller-supplied bound on header slots (the caller passes a fixed array of
16 slots; exceeding it is a parse error). -/

def headTerminator : List Byte := [13, 10, 13, 10]

/-- Offset just past the first occurrence of CRLF CRLF, if any. -/
def findHeadEnd : List Byte → Option Nat
  | [] => none
  | b :: rest =>
    if (b :: rest).take 4 = headTerminator then some 4
    else (findHeadEnd rest).map (· + 1)

/-- Split off the content before the first CRLF; `none` when no CRLF occurs. -/
def splitLine : List Byte → Option (List Byte × List Byte)
  | [] => none
  | 13 :: 10 :: rest => some ([], rest)
  | b :: rest => (splitLine rest).map (fun p => (b :: p.1, p.2))

def isDigit (b : Byte) : Bool := 48 ≤ b && b ≤ 57

/-- Parse a status line body (already stripped of its CRLF):
`HTTP/1.<digit> SP <3 digits> [SP reason]`. -/
def parseStatusLine : List Byte → Option (Nat × List Byte)
  | 72 :: 84 :: 84 :: 80 :: 47 :: 49 :: 46 :: v :: 32 :: d1 :: d2 :: d3 :: rest =>
    if isDigit v && isDigit d1 && isDigit d2 && isDigit d3 then
      let code := (d1 - 48) * 100 + (d2 - 48) * 10 + (d3 - 48)
      match rest with
      | [] => some (code, [])
      | 32 :: reason => some (code, reason)
      | _ => none
    else none
  | _ => none

/-- Split off the content before the first colon; `none` when no colon occurs. -/
def splitColon : List Byte → Option (List Byte × List Byte)
  | [] => none
  | 58 :: rest => some ([], rest)
  | b :: rest => (splitColon rest).map (fun p => (b :: p.1, p.2))

def dropLeadingSpaces : List Byte → List Byte
  | 32 :: rest => dropLeadingSpaces rest
  | 9 :: rest => dropLeadingSpaces rest
  | l => l

/-- Parse one header line body (already stripped of its CRLF) into a
name/value pair. -/
def parseHeaderLine (line : List Byte) : Option (List Byte × List Byte) :=
  match splitColon line with
  | none => none
  | some (name, rest) => if name = [] then none else some (name, dropLeadingSpaces rest)

/-- Parse the CRLF-terminated header lines up to and including the empty
terminator line, failing when more than `maxHeaders` headers occur.  The
first argument is recursion fuel (callers pass the byte count plus one,
which is always sufficient since every line consumes at least two bytes). -/
def parseHeaders : Nat → Nat → List Byte → Option (List (List Byte × List Byte))
  | 0, _, _ => none
  | fuel + 1, maxHeaders, bytes =>
    match splitLine bytes with
    | none => none
    | some ([], rest) => if rest = [] then some [] else none
    | some (line, rest) =>
      if maxHeaders = 0 then none
      else
        match parseHeaderLine line, parseHeaders fuel (maxHeaders - 1) rest with
        | some nv, some hs => some (nv :: hs)
        | _, _ => none

/-- The tokenizer's parsed response: status code and reason phrase are
optional because the underlying response object starts out unfilled; the
conversion into `ResponseParts` unwraps them. -/
structure HttparseResponse where
  code : Option Nat
  reason : Option (List Byte)
  headers : List (List Byte × List Byte)
deriving DecidableEq

/-- Parse a complete head region (ending in CRLF CRLF). -/
def parseHead (maxHeaders : Nat) (region : List Byte) : Option HttparseResponse :=
  match splitLine region with
  | none => none
  | some (statusLine, rest) =>
    match parseStatusLine statusLine, parseHeaders (rest.length + 1) maxHeaders rest with
    | some (code, reason), some hs => some ⟨some code, some reason, hs⟩
    | _, _ => none

inductive TokenizeOk where
  | incomplete
  | complete (consumed : Nat) (response : HttparseResponse)
deriving DecidableEq

/-- The tokenizer interface: incomplete, complete at a consumed offset with
the parsed response, or malformed (`Except.error`). -/
def tokenize (maxHeaders : Nat) (buf : List Byte) : Except Unit TokenizeOk :=
  match findHeadEnd buf with
  | none => Except.ok TokenizeOk.incomplete
  | some c =>
    match parseHead maxHeaders (buf.take c) with
    | some r => Except.ok (TokenizeOk.complete c r)
    | none => Except.error ()

/-! ## Data model -/

/-- Modelled from the spec: the HTTP header container (section 3) is an
external collaborator — an ordered multimap of name/value pairs; insertion
order is preserved for serialization and duplicate names are retained. -/
abbrev HeaderMap := List (List Byte × List Byte)

def HeaderMap.new : HeaderMap := []

def HeaderMap.insert (m : HeaderMap) (name value : List Byte) : HeaderMap :=
  m ++ [(name, value)]

structure ResponseParts where
  status_code : Nat
  reason_phrase : List Byte
  headers : HeaderMap
deriving DecidableEq

/-- Conversion of the tokenizer's response into `ResponseParts`.  The source
unwraps the status code and reason phrase and panics when the response is
not complete; the panic is modelled as `none`. -/
def parts_from_complete_response (response : HttparseResponse) : Option ResponseParts :=
  match response.code, response.reason with
  | some status_code, some reason_phrase =>
    some { status_code := status_code
           reason_phrase := reason_phrase
           headers := response.headers.foldl (fun m nv => m.insert nv.1 nv.2) HeaderMap.new }
  | _, _ => none

structure HandshakeOutcome where
  response_parts : ResponseParts
  data_after_handshake : List Byte
deriving DecidableEq

/-- `HandshakeOutcome::new`; `none` models the panic of the fail-fast
conversion on an incomplete response. -/
def HandshakeOutcome.new (response : HttparseResponse) (data_after_handshake : List Byte) :
    Option HandshakeOutcome :=
  (parts_from_complete_response response).map
    fun p => { response_parts := p, data_after_handshake := data_after_handshake }

/-! ## Handshake receiver (`receive_response`)

The transport is the list of chunks returned by its successive reads; once
the list is exhausted every further read returns zero bytes (end of
stream), exactly as a closed connection does. -/

/-- One transport read: the next chunk, or a zero-length read at end of
stream. -/
def readOnce : List Chunk → Chunk × List Chunk
  | [] => ([], [])
  | c :: rest => (c, rest)

/-- Result of a `receive_response` run.  Successful and failing returns
carry the reads the transport had not yet delivered when the function
returned, so that "no further reads" is a statement of the model. -/
inductive RunResult where
  | success (outcome : HandshakeOutcome) (remainingReads : List Chunk)
  | invalidData (remainingReads : List Chunk)
  | panicked
deriving DecidableEq

/-- The accumulation loop of `receive_response`: read, append to the
carry-on buffer, re-tokenize the whole buffer with 16 header slots, repeat
on incomplete.  Fuel bounds the number of iterations; `none` means the loop
was still running when the fuel ran out. -/
def receiveLoop : Nat → List Chunk → List Byte → Option RunResult
  | 0, _, _ => none
  | fuel + 1, reads, carryOn =>
    let (buf, reads') := readOnce reads
    let carryOn' := carryOn ++ buf
    match tokenize 16 carryOn' with
    | Except.error _ => some (RunResult.invalidData reads')
    | Except.ok TokenizeOk.incomplete => receiveLoop fuel reads' carryOn'
    | Except.ok (TokenizeOk.complete c r) =>
      match HandshakeOutcome.new r (carryOn'.drop c) with
      | some o => some (RunResult.success o reads')
      | none => some RunResult.panicked

/-- `receive_response`: first read and tokenize directly from the scratch
buffer (happy path); on incomplete, fall into the accumulation loop seeded
with the bytes of the first read. -/
def receive_response (fuel : Nat) (reads : List Chunk) : Option RunResult :=
  let (buf, reads') := readOnce reads
  match tokenize 16 buf with
  | Except.error _ => some (RunResult.invalidData reads')
  | Except.ok (TokenizeOk.complete c r) =>
    match HandshakeOutcome.new r (buf.drop c) with
    | some o => some (RunResult.success o reads')
    | none => some RunResult.panicked
  | Except.ok TokenizeOk.incomplete => receiveLoop fuel reads' buf

/-! ## Request encoder (`flow/request.rs` and `send_request`) -/

namespace Request

/-- `write_host_port`: host, colon, decimal port. -/
def write_host_port (host : List Byte) (port : Nat) : List Byte :=
  host ++ [58] ++ decimalBytes port

/-- `write_headers`: sequentially write `name`, `": "`, `value`, CRLF for
each header in collection order. -/
def write_headers (headers : HeaderMap) : List Byte :=
  headers.foldl (fun acc nv => acc ++ nv.1 ++ [58, 32] ++ nv.2 ++ [13, 10]) []

/-- `request::write`: assemble the full CONNECT request. -/
def write (host : List Byte) (port : Nat) (headers : HeaderMap) : List Byte :=
  asciiBytes ("CONNECT ") ++ write_host_port host port ++ asciiBytes (" HTTP/1.1\r\n") ++
  asciiBytes ("Host: ") ++ write_host_port host port ++ asciiBytes ("\r\n") ++
  write_headers headers ++ asciiBytes ("\r\n")

end Request

/-! ## Transport / inner stream model

A duplex stream with the bytes its reads will yield and the log of bytes
written to it.  Reads return up to the requested count; writes accept all
supplied bytes (the transport abstraction provides write-all semantics). -/

structure InnerStream where
  toRead : List Byte
  written : List Byte
deriving DecidableEq

def InnerStream.read (s : InnerStream) (n : Nat) : List Byte × InnerStream :=
  (s.toRead.take n, { s with toRead := s.toRead.drop n })

def InnerStream.write (s : InnerStream) (buf : List Byte) : Nat × InnerStream :=
  (buf.length, { s with written := s.written ++ buf })

/-- `send_request`: assemble the request with `request::write` into a fresh
buffer, then write it to the transport in a single write-all call. -/
def send_request (stream : InnerStream) (host : List Byte) (port : Nat)
    (headers : HeaderMap) : InnerStream :=
  (stream.write (Request.write host port headers)).2

/-- Template from the specification, section 4.1, written out literally:
`CONNECT <host>:<port> HTTP/1.1 CRLF Host: <host>:<port> CRLF` then
`<name>: <value> CRLF` per header in collection order, then `CRLF`. -/
def specConnectRequest (host : List Byte) (port : Nat) (headers : HeaderMap) : List Byte :=
  asciiBytes ("CONNECT ") ++ host ++ [58] ++ decimalBytes port ++ asciiBytes (" HTTP/1.1") ++
    [13, 10] ++
  asciiBytes ("Host: ") ++ host ++ [58] ++ decimalBytes port ++ [13, 10] ++
  (headers.map (fun nv => nv.1 ++ [58, 32] ++ nv.2 ++ [13, 10])).flatten ++
  [13, 10]

/-! ## Replay stream (`prepend_io_stream.rs`)

`PrependIoStream` delegates to a chain combinator of a cursor over the
leftover bytes followed by the inner stream; the chain reads the cursor
until it yields zero bytes for a non-empty caller buffer, then switches
permanently to the inner stream. -/

structure Cursor where
  data : List Byte
  pos : Nat
deriving DecidableEq

/-- Bytes of the cursor not yet read. -/
def Cursor.remaining (c : Cursor) : List Byte := c.data.drop c.pos

def Cursor.read (c : Cursor) (n : Nat) : List Byte × Cursor :=
  let out := c.remaining.take n
  (out, { c with pos := c.pos + out.length })

/-- The chain combinator state: leftover cursor, the switched-over flag,
and the inner stream. -/
structure ChainState where
  first : Cursor
  doneFirst : Bool
  second : InnerStream
deriving DecidableEq

/-- One chain read: while not switched over, read the cursor; a zero-byte
cursor result with a non-empty caller buffer switches over and reads the
inner stream within the same call. -/
def ChainState.read (ch : ChainState) (n : Nat) : List Byte × ChainState :=
  if ch.doneFirst then
    let (out, s') := ch.second.read n
    (out, { ch with second := s' })
  else
    let (out, c') := ch.first.read n
    if out.length = 0 ∧ n ≠ 0 then
      let (out2, s') := ch.second.read n
      (out2, { first := c', doneFirst := true, second := s' })
    else
      (out, { ch with first := c' })

inductive PrependIoStream where
  | chain (st : ChainState)
  | plain (s : InnerStream)
deriving DecidableEq

namespace PrependIoStream

/-- `from_vec`: a `none` or empty leftover buffer yields the plain shape;
otherwise a chain over a fresh cursor at position zero. -/
def from_vec (stream : InnerStream) (read_prepend : Option (List Byte)) : PrependIoStream :=
  match read_prepend with
  | none => plain stream
  | some v => if v = [] then plain stream else chain ⟨⟨v, 0⟩, false, stream⟩

/-- `into_inner`: reclaim the inner stream and the leftover cursor
(absent in the plain shape). -/
def into_inner : PrependIoStream → InnerStream × Option Cursor
  | chain st => (st.second, some st.first)
  | plain s => (s, none)

/-- `pending_prepend_data`: the unread tail of the leftover buffer. -/
def pending_prepend_data : PrependIoStream → List Byte
  | chain st => st.first.remaining
  | plain _ => []

/-- `poll_read`: delegate to the chain or to the inner stream. -/
def poll_read : PrependIoStream → Nat → List Byte × PrependIoStream
  | chain st, n => let (out, st') := st.read n; (out, chain st')
  | plain s, n => let (out, s') := s.read n; (out, plain s')

/-- `poll_write`: always write to the inner stream; in the chain shape the
cursor is not touched. -/
def poll_write : PrependIoStream → List Byte → Nat × PrependIoStream
  | chain st, buf =>
    let (k, s') := st.second.write buf
    (k, chain { st with second := s' })
  | plain s, buf =>
    let (k, s') := s.write buf
    (k, plain s')

/-- The inner stream component of either shape. -/
def innerStream : PrependIoStream → InnerStream
  | chain st => st.second
  | plain s => s

end PrependIoStream

/-- Unread bytes of an optional leftover cursor (empty when absent). -/
def cursorRemaining : Option Cursor → List Byte
  | none => []
  | some c => c.remaining

/-! ## Tokenizer lemmas -/

theorem findHeadEnd_bounds {l : List Byte} {c : Nat} (h : findHeadEnd l = some c) :
    4 ≤ c ∧ c ≤ l.length := by
  induction l generalizing c with
  | nil => simp [findHeadEnd] at h
  | cons b rest ih =>
    simp only [findHeadEnd] at h
    split at h
    · rename_i hterm
      have hc : c = 4 := by simpa using h.symm
      have hlen : ((b :: rest).take 4).length = 4 := by
        rw [hterm]; rfl
      rw [List.length_take] at hlen
      subst hc
      omega
    · obtain ⟨c', hc', hcc⟩ := Option.map_eq_some'.mp h
      obtain ⟨h4, hle⟩ := ih hc'
      subst hcc
      simp only [List.length_cons]
      omega

theorem findHeadEnd_append {l t : List Byte} {c : Nat} (h : findHeadEnd l = some c) :
    findHeadEnd (l ++ t) = some c := by
  induction l generalizing c with
  | nil => simp [findHeadEnd] at h
  | cons b rest ih =>
    rw [List.cons_append]
    simp only [findHeadEnd] at h ⊢
    split at h
    · rename_i hterm
      have hlen : ((b :: rest).take 4).length = 4 := by rw [hterm]; rfl
      rw [List.length_take] at hlen
      have h4 : 4 ≤ (b :: rest).length := by omega
      have htake : (b :: (rest ++ t)).take 4 = (b :: rest).take 4 := by
        rw [← List.cons_append]
        exact List.take_append_of_le_length h4
      rw [if_pos (htake.trans hterm)]
      exact h
    · rename_i hterm
      obtain ⟨c', hc', hcc⟩ := Option.map_eq_some'.mp h
      have hb := findHeadEnd_bounds hc'
      have h5 : 4 ≤ (b :: rest).length := by
        simp only [List.length_cons]; omega
      have htake : (b :: (rest ++ t)).take 4 = (b :: rest).take 4 := by
        rw [← List.cons_append]
        exact List.take_append_of_le_length h5
      have hne : ¬ (b :: (rest ++ t)).take 4 = headTerminator := by
        rw [htake]; exact hterm
      rw [if_neg hne, ih hc', Option.map_some', hcc]

theorem findHeadEnd_append_left {u t : List Byte} {c : Nat}
    (h : findHeadEnd (u ++ t) = some c) (hc : c ≤ u.length) : findHeadEnd u = some c := by
  induction u generalizing c with
  | nil =>
    obtain ⟨h4, _⟩ := findHeadEnd_bounds h
    simp at hc
    omega
  | cons b rest ih =>
    rw [List.cons_append] at h
    simp only [findHeadEnd] at h ⊢
    split at h
    · rename_i hterm
      have hc4 : c = 4 := by simpa using h.symm
      subst hc4
      have h4 : 4 ≤ (b :: rest).length := hc
      have htake : (b :: (rest ++ t)).take 4 = (b :: rest).take 4 := by
        rw [← List.cons_append]
        exact List.take_append_of_le_length h4
      rw [if_pos (htake.symm.trans hterm)]
    · rename_i hterm
      obtain ⟨c', hc', hcc⟩ := Option.map_eq_some'.mp h
      have hb := findHeadEnd_bounds hc'
      have hc'le : c' ≤ rest.length := by
        simp only [List.length_cons] at hc
        omega
      have hrest := ih hc' hc'le
      have h5 : 4 ≤ (b :: rest).length := by
        have := findHeadEnd_bounds hrest
        simp only [List.length_cons]
        omega
      have htake : (b :: (rest ++ t)).take 4 = (b :: rest).take 4 := by
        rw [← List.cons_append]
        exact List.take_append_of_le_length h5
      have hne : ¬ (b :: rest).take 4 = headTerminator := by
        rw [← htake]; exact hterm
      rw [if_neg hne, hrest, Option.map_some', hcc]

theorem findHeadEnd_take_of_le {l : List Byte} {c k : Nat}
    (h : findHeadEnd l = some c) (hk : c ≤ k) : findHeadEnd (l.take k) = some c := by
  obtain ⟨h4, hle⟩ := findHeadEnd_bounds h
  apply findHeadEnd_append_left (t := l.drop k)
  · rw [List.take_append_drop]
    exact h
  · rw [List.length_take]
    omega

theorem findHeadEnd_take_none {l : List Byte} {c k : Nat}
    (h : findHeadEnd l = some c) (hk : k < c) : findHeadEnd (l.take k) = none := by
  cases htk : findHeadEnd (l.take k) with
  | none => rfl
  | some c₂ =>
    exfalso
    obtain ⟨_, hle⟩ := findHeadEnd_bounds htk
    have happ : findHeadEnd (l.take k ++ l.drop k) = some c₂ := findHeadEnd_append htk
    rw [List.take_append_drop, h] at happ
    have : c = c₂ := by simpa using happ
    rw [List.length_take] at hle
    omega

theorem tokenize_complete_inv {m : Nat} {l : List Byte} {c : Nat} {r : HttparseResponse}
    (h : tokenize m l = Except.ok (TokenizeOk.complete c r)) :
    findHeadEnd l = some c ∧ parseHead m (l.take c) = some r := by
  unfold tokenize at h
  split at h
  · simp at h
  · rename_i c' hf
    split at h
    · rename_i r' hp
      simp only [Except.ok.injEq, TokenizeOk.complete.injEq] at h
      obtain ⟨hc, hr⟩ := h
      subst hc
      subst hr
      exact ⟨hf, hp⟩
    · simp at h

theorem tokenize_complete_bounds {m : Nat} {l : List Byte} {c : Nat} {r : HttparseResponse}
    (h : tokenize m l = Except.ok (TokenizeOk.complete c r)) : 4 ≤ c ∧ c ≤ l.length :=
  findHeadEnd_bounds (tokenize_complete_inv h).1

theorem tokenize_take_complete {m : Nat} {l : List Byte} {c k : Nat} {r : HttparseResponse}
    (h : tokenize m l = Except.ok (TokenizeOk.complete c r)) (hk : c ≤ k) :
    tokenize m (l.take k) = Except.ok (TokenizeOk.complete c r) := by
  obtain ⟨hf, hp⟩ := tokenize_complete_inv h
  simp [tokenize, findHeadEnd_take_of_le hf hk, List.take_take, min_eq_left hk, hp]

theorem tokenize_take_incomplete {m : Nat} {l : List Byte} {c k : Nat} {r : HttparseResponse}
    (h : tokenize m l = Except.ok (TokenizeOk.complete c r)) (hk : k < c) :
    tokenize m (l.take k) = Except.ok TokenizeOk.incomplete := by
  obtain ⟨hf, _⟩ := tokenize_complete_inv h
  simp [tokenize, findHeadEnd_take_none hf hk]

theorem parseHeaders_length {fuel maxHeaders : Nat} {bytes : List Byte}
    {hs : List (List Byte × List Byte)}
    (h : parseHeaders fuel maxHeaders bytes = some hs) : hs.length ≤ maxHeaders := by
  induction fuel generalizing maxHeaders bytes hs with
  | zero => simp [parseHeaders] at h
  | succ fuel ih =>
    rw [parseHeaders] at h
    split at h
    · simp at h
    · split at h
      · rename_i hrest
        simp only [Option.some.injEq] at h
        subst h
        simp
      · simp at h
    · split at h
      · simp at h
      · rename_i hline hmax
        split at h
        · rename_i nv hs' hnv hrec
          simp only [Option.some.injEq] at h
          subst h
          have := ih hrec
          simp only [List.length_cons]
          omega
        · simp at h

theorem parseHead_inv {m : Nat} {region : List Byte} {r : HttparseResponse}
    (h : parseHead m region = some r) :
    (∃ code, r.code = some code) ∧ (∃ reason, r.reason = some reason) ∧
      r.headers.length ≤ m := by
  unfold parseHead at h
  split at h
  · simp at h
  · split at h
    · rename_i code reason hs hsl hhs
      simp only [Option.some.injEq] at h
      subst h
      exact ⟨⟨code, rfl⟩, ⟨reason, rfl⟩, parseHeaders_length hhs⟩
    · simp at h

theorem foldl_append_singleton {α : Type} (tl : List α) (acc : List α) :
    List.foldl (fun m v => m ++ [v]) acc tl = acc ++ tl := by
  induction tl generalizing acc with
  | nil => simp
  | cons v tl ih => simp [ih]

theorem headerMap_foldl (hs : List (List Byte × List Byte)) (acc : HeaderMap) :
    hs.foldl (fun m nv => m.insert nv.1 nv.2) acc = acc ++ hs := by
  have : (fun (m : HeaderMap) (nv : List Byte × List Byte) => m.insert nv.1 nv.2) =
      fun m nv => m ++ [nv] := by
    funext m nv
    simp [HeaderMap.insert]
  rw [this, foldl_append_singleton]

theorem parts_from_complete_some {r : HttparseResponse} {code : Nat} {reason : List Byte}
    (hc : r.code = some code) (hr : r.reason = some reason) :
    parts_from_complete_response r = some ⟨code, reason, r.headers⟩ := by
  unfold parts_from_complete_response
  rw [hc, hr]
  simp [headerMap_foldl, HeaderMap.new]

theorem tokenize_complete_parts {m : Nat} {l : List Byte} {c : Nat} {r : HttparseResponse}
    (h : tokenize m l = Except.ok (TokenizeOk.complete c r)) :
    ∃ code reason, r.code = some code ∧ r.reason = some reason ∧
      parts_from_complete_response r = some ⟨code, reason, r.headers⟩ ∧
      r.headers.length ≤ m := by
  obtain ⟨_, hp⟩ := tokenize_complete_inv h
  obtain ⟨⟨code, hc⟩, ⟨reason, hr⟩, hlen⟩ := parseHead_inv hp
  exact ⟨code, reason, hc, hr, parts_from_complete_some hc hr, hlen⟩

/-! ## Receiver lemmas -/

theorem receiveLoop_eof_none {carry : List Byte}
    (h : tokenize 16 carry = Except.ok TokenizeOk.incomplete) :
    ∀ fuel : Nat, receiveLoop fuel [] carry = none := by
  intro fuel
  induction fuel with
  | zero => rfl
  | succ f ih =>
    simp only [receiveLoop, readOnce, List.append_nil, h]
    exact ih

theorem receiveLoop_frag (full : List Byte) (c : Nat) (r : HttparseResponse) (p : ResponseParts)
    (hfull : tokenize 16 full = Except.ok (TokenizeOk.complete c r))
    (hp : parts_from_complete_response r = some p) :
    ∀ (chunks : List Chunk) (fuel : Nat) (carry : List Byte),
      chunks.length ≤ fuel →
      carry ++ chunks.flatten = full →
      carry.length < c →
      ∃ (data : List Byte) (rest : List Chunk),
        receiveLoop fuel chunks carry = some (RunResult.success ⟨p, data⟩ rest) ∧
        data ++ rest.flatten = full.drop c := by
  intro chunks
  induction chunks with
  | nil =>
    intro fuel carry _ hjoin hlt
    exfalso
    obtain ⟨_, hcle⟩ := tokenize_complete_bounds hfull
    simp only [List.flatten_nil, List.append_nil] at hjoin
    subst hjoin
    omega
  | cons ch rest ih =>
    intro fuel carry hfuel hjoin hlt
    cases fuel with
    | zero => simp at hfuel
    | succ f =>
      have hfuel' : rest.length ≤ f := by
        simp only [List.length_cons] at hfuel
        omega
      have hjoin' : (carry ++ ch) ++ rest.flatten = full := by
        simpa [List.append_assoc] using hjoin
      have hcfx : full.take (carry ++ ch).length = carry ++ ch := by
        rw [← hjoin']
        exact List.take_left _ _
      by_cases hlen : (carry ++ ch).length < c
      · have htok : tokenize 16 (carry ++ ch) = Except.ok TokenizeOk.incomplete := by
          have := tokenize_take_incomplete hfull hlen
          rwa [hcfx] at this
        have step : receiveLoop (f + 1) (ch :: rest) carry = receiveLoop f rest (carry ++ ch) := by
          simp [receiveLoop, readOnce, htok]
        rw [step]
        exact ih f (carry ++ ch) hfuel' hjoin' hlen
      · push_neg at hlen
        have htok : tokenize 16 (carry ++ ch) = Except.ok (TokenizeOk.complete c r) := by
          have := tokenize_take_complete hfull hlen
          rwa [hcfx] at this
        refine ⟨(carry ++ ch).drop c, rest, ?_, ?_⟩
        · simp [receiveLoop, readOnce, htok, HandshakeOutcome.new, hp]
        · have : full.drop c = (carry ++ ch).drop c ++ rest.flatten := by
            rw [← hjoin']
            exact List.drop_append_of_le_length hlen
          exact this.symm

def isPanicked : RunResult → Bool
  | RunResult.panicked => true
  | _ => false

theorem receiveLoop_no_panic :
    ∀ (fuel : Nat) (reads : List Chunk) (carry : List Byte) (res : RunResult),
      receiveLoop fuel reads carry = some res → isPanicked res = false := by
  intro fuel
  induction fuel with
  | zero =>
    intro reads carry res h
    simp [receiveLoop] at h
  | succ f ih =>
    intro reads carry res h
    cases reads with
    | nil =>
      simp only [receiveLoop, readOnce] at h
      split at h
      · simp only [Option.some.injEq] at h
        subst h
        rfl
      · exact ih _ _ _ h
      · rename_i c r htok
        split at h
        · simp only [Option.some.injEq] at h
          subst h
          rfl
        · rename_i hnew
          exfalso
          obtain ⟨code, reason, _, _, hps, _⟩ := tokenize_complete_parts htok
          simp [HandshakeOutcome.new, hps] at hnew
    | cons ch rest =>
      simp only [receiveLoop, readOnce] at h
      split at h
      · simp only [Option.some.injEq] at h
        subst h
        rfl
      · exact ih _ _ _ h
      · rename_i c r htok
        split at h
        · simp only [Option.some.injEq] at h
          subst h
          rfl
        · rename_i hnew
          exfalso
          obtain ⟨code, reason, _, _, hps, _⟩ := tokenize_complete_parts htok
          simp [HandshakeOutcome.new, hps] at hnew

theorem receive_response_no_panic_aux :
    ∀ (fuel : Nat) (reads : List Chunk) (res : RunResult),
      receive_response fuel reads = some res → isPanicked res = false := by
  intro fuel reads res h
  cases reads with
  | nil =>
    simp only [receive_response, readOnce] at h
    split at h
    · simp only [Option.some.injEq] at h
      subst h
      rfl
    · rename_i c r htok
      split at h
      · simp only [Option.some.injEq] at h
        subst h
        rfl
      · rename_i hnew
        exfalso
        obtain ⟨code, reason, _, _, hps, _⟩ := tokenize_complete_parts htok
        simp [HandshakeOutcome.new, hps] at hnew
    · exact receiveLoop_no_panic _ _ _ _ h
  | cons ch rest =>
    simp only [receive_response, readOnce] at h
    split at h
    · simp only [Option.some.injEq] at h
      subst h
      rfl
    · rename_i c r htok
      split at h
      · simp only [Option.some.injEq] at h
        subst h
        rfl
      · rename_i hnew
        exfalso
        obtain ⟨code, reason, _, _, hps, _⟩ := tokenize_complete_parts htok
        simp [HandshakeOutcome.new, hps] at hnew
    · exact receiveLoop_no_panic _ _ _ _ h

theorem receiveLoop_success_headers :
    ∀ (fuel : Nat) (reads : List Chunk) (carry : List Byte) (o : HandshakeOutcome)
      (rest : List Chunk),
      receiveLoop fuel reads carry = some (RunResult.success o rest) →
      o.response_parts.headers.length ≤ 16 := by
  intro fuel
  induction fuel with
  | zero =>
    intro reads carry o rest h
    simp [receiveLoop] at h
  | succ f ih =>
    intro reads carry o rest h
    cases reads with
    | nil =>
      simp only [receiveLoop, readOnce] at h
      split at h
      · simp at h
      · exact ih _ _ _ _ h
      · rename_i c r htok
        split at h
        · rename_i o' hnew
          obtain ⟨code, reason, _, _, hps, hlen⟩ := tokenize_complete_parts htok
          simp only [HandshakeOutcome.new, hps, Option.map_some'] at hnew
          simp only [Option.some.injEq, RunResult.success.injEq] at h
          simp only [Option.some.injEq] at hnew
          obtain ⟨ho, _⟩ := h
          rw [← ho, ← hnew]
          simpa using hlen
        · simp at h
    | cons ch more =>
      simp only [receiveLoop, readOnce] at h
      split at h
      · simp at h
      · exact ih _ _ _ _ h
      · rename_i c r htok
        split at h
        · rename_i o' hnew
          obtain ⟨code, reason, _, _, hps, hlen⟩ := tokenize_complete_parts htok
          simp only [HandshakeOutcome.new, hps, Option.map_some'] at hnew
          simp only [Option.some.injEq, RunResult.success.injEq] at h
          simp only [Option.some.injEq] at hnew
          obtain ⟨ho, _⟩ := h
          rw [← ho, ← hnew]
          simpa using hlen
        · simp at h

theorem receive_response_success_headers :
    ∀ (fuel : Nat) (reads : List Chunk) (o : HandshakeOutcome) (rest : List Chunk),
      receive_response fuel reads = some (RunResult.success o rest) →
      o.response_parts.headers.length ≤ 16 := by
  intro fuel reads o rest h
  cases reads with
  | nil =>
    simp only [receive_response, readOnce] at h
    split at h
    · simp at h
    · rename_i c r htok
      split at h
      · rename_i o' hnew
        obtain ⟨code, reason, _, _, hps, hlen⟩ := tokenize_complete_parts htok
        simp only [HandshakeOutcome.new, hps, Option.map_some'] at hnew
        simp only [Option.some.injEq, RunResult.success.injEq] at h
        simp only [Option.some.injEq] at hnew
        obtain ⟨ho, _⟩ := h
        rw [← ho, ← hnew]
        simpa using hlen
      · simp at h
    · exact receiveLoop_success_headers _ _ _ _ _ h
  | cons ch more =>
    simp only [receive_response, readOnce] at h
    split at h
    · simp at h
    · rename_i c r htok
      split at h
      · rename_i o' hnew
        obtain ⟨code, reason, _, _, hps, hlen⟩ := tokenize_complete_parts htok
        simp only [HandshakeOutcome.new, hps, Option.map_some'] at hnew
        simp only [Option.some.injEq, RunResult.success.injEq] at h
        simp only [Option.some.injEq] at hnew
        obtain ⟨ho, _⟩ := h
        rw [← ho, ← hnew]
        simpa using hlen
      · simp at h
    · exact receiveLoop_success_headers _ _ _ _ _ h

/-! ## Claim theorems: handshake receiver -/

/-- A response head cut off before its terminator, followed by end of
stream: the transport delivers this one chunk and then only zero-length
reads. -/
def truncatedHead : List Byte := asciiBytes ("HTTP/1.1 200 OK\r\n")

/-- C2: the specification mandates that a zero-length read (transport
closed) before a complete head surfaces as an error; the code instead
re-tokenizes the unchanged carry-on buffer and loops forever.  For every
fuel bound the run is still unfinished (`none`), i.e. `receive_response`
never returns on a closed transport with an incomplete head, contradicting
the mandated `UnexpectedEof` failure. -/
theorem receive_response_eof_diverges :
    ∀ fuel : Nat, receive_response fuel [truncatedHead] = none := by
  intro fuel
  have h : tokenize 16 truncatedHead = Except.ok TokenizeOk.incomplete := rfl
  have hstep : receive_response fuel [truncatedHead] = receiveLoop fuel [] truncatedHead := by
    simp [receive_response, readOnce, h]
  rw [hstep]
  exact receiveLoop_eof_none h fuel

/-- C7: when the tokenizer reports malformed input — on the first read or
on any accumulation-loop iteration — the receiver returns the data-format
error immediately, and the reads the transport had not yet delivered are
returned untouched (no further read happens). -/
theorem receive_response_malformed_stops :
    (∀ (buf : List Byte) (rest : List Chunk) (fuel : Nat),
       tokenize 16 buf = Except.error () →
       receive_response fuel (buf :: rest) = some (RunResult.invalidData rest)) ∧
    (∀ (carry ch : List Byte) (rest : List Chunk) (fuel : Nat),
       tokenize 16 (carry ++ ch) = Except.error () →
       receiveLoop (fuel + 1) (ch :: rest) carry = some (RunResult.invalidData rest)) := by
  constructor
  · intro buf rest fuel h
    simp [receive_response, readOnce, h]
  · intro carry ch rest fuel h
    simp [receiveLoop, readOnce, h]

theorem receive_response_malformed_stops_witness :
    receive_response 0 [asciiBytes ("XYZ\r\n\r\n"), asciiBytes ("more")] =
      some (RunResult.invalidData [asciiBytes ("more")]) ∧
    receiveLoop 1 [asciiBytes ("\r\n\r\n")] (asciiBytes ("XYZ")) =
      some (RunResult.invalidData []) :=
  ⟨receive_response_malformed_stops.1 (asciiBytes ("XYZ\r\n\r\n")) [asciiBytes ("more")] 0 rfl,
   receive_response_malformed_stops.2 (asciiBytes ("XYZ")) (asciiBytes ("\r\n\r\n")) [] 0 rfl⟩

/-- C8: the conversion to `ResponseParts` is only reached when the
tokenizer reported completion, so its fail-fast extraction of status code
and reason phrase never actually fails: no run of `receive_response`
returns the panic outcome. -/
theorem receive_response_never_panics :
    ∀ (fuel : Nat) (reads : List Chunk),
      Option.all (fun res => !isPanicked res) (receive_response fuel reads) = true := by
  intro fuel reads
  cases h : receive_response fuel reads with
  | none => rfl
  | some res =>
    have := receive_response_no_panic_aux fuel reads res h
    simp [Option.all, this]

/-- C4: when the first read delivers a complete head (consumed offset `c`)
plus trailing bytes, the receiver succeeds at once: the parts reflect
exactly the tokenizer's status code, reason phrase and header list, the
leftover data is exactly the tail of that read past `c`, and no further
read happens. -/
theorem receive_response_single_read
    (buf : List Byte) (more : List Chunk) (c : Nat) (r : HttparseResponse)
    (code : Nat) (reason : List Byte) (fuel : Nat)
    (h : tokenize 16 buf = Except.ok (TokenizeOk.complete c r))
    (hcode : r.code = some code) (hreason : r.reason = some reason) :
    receive_response fuel (buf :: more) =
      some (RunResult.success ⟨⟨code, reason, r.headers⟩, buf.drop c⟩ more) := by
  have hps := parts_from_complete_some hcode hreason
  simp [receive_response, readOnce, h, HandshakeOutcome.new, hps]

theorem receive_response_single_read_witness :
    receive_response 0 [asciiBytes ("HTTP/1.1 200 OK\r\nX-Custom: Sample Value\r\n\r\nrest"),
        asciiBytes ("later")] =
      some (RunResult.success
        ⟨⟨200, asciiBytes ("OK"), [(asciiBytes ("X-Custom"), asciiBytes ("Sample Value"))]⟩,
         asciiBytes ("rest")⟩
        [asciiBytes ("later")]) :=
  receive_response_single_read
    (asciiBytes ("HTTP/1.1 200 OK\r\nX-Custom: Sample Value\r\n\r\nrest"))
    [asciiBytes ("later")] 43
    ⟨some 200, some (asciiBytes ("OK")),
     [(asciiBytes ("X-Custom"), asciiBytes ("Sample Value"))]⟩
    200 (asciiBytes ("OK")) 0 rfl rfl rfl

/-- A well-formed response head carrying seventeen header lines. -/
def seventeenHeaderHead : List Byte :=
  asciiBytes ("HTTP/1.1 200 OK\r\n") ++
    (List.replicate 17 (asciiBytes ("a: b\r\n"))).flatten ++ asciiBytes ("\r\n")

set_option maxRecDepth 8000 in
/-- C10: the receiver tokenizes with a fixed budget of 16 header slots:
every successful outcome carries at most 16 headers, and a well-formed
head with 17 header lines makes the handshake fail with the data-format
error instead of succeeding. -/
theorem receive_response_header_limit :
    (∀ (fuel : Nat) (reads : List Chunk) (o : HandshakeOutcome) (rest : List Chunk),
       receive_response fuel reads = some (RunResult.success o rest) →
       o.response_parts.headers.length ≤ 16) ∧
    (∀ fuel : Nat, receive_response fuel [seventeenHeaderHead] =
       some (RunResult.invalidData [])) := by
  constructor
  · intro fuel reads o rest h
    exact receive_response_success_headers fuel reads o rest h
  · intro fuel
    have h : tokenize 16 seventeenHeaderHead = Except.error () := by rfl
    simp [receive_response, readOnce, h]

theorem receive_response_header_limit_witness :
    ({ response_parts :=
         { status_code := 200, reason_phrase := asciiBytes ("OK"),
           headers := [(asciiBytes ("X-Custom"), asciiBytes ("Sample Value"))] }
       data_after_handshake := asciiBytes ("rest") } :
        HandshakeOutcome).response_parts.headers.length ≤ 16 :=
  receive_response_header_limit.1 0
    [asciiBytes ("HTTP/1.1 200 OK\r\nX-Custom: Sample Value\r\n\r\nrest")]
    _ [] (by rfl)

/-- The leftover data of a successful run, when the run succeeded. -/
def successData : Option RunResult → Option (List Byte)
  | some (RunResult.success o _) => some o.data_after_handshake
  | _ => none

/-- A complete bare response head, 19 bytes. -/
def bareHead : List Byte := asciiBytes ("HTTP/1.1 200 OK\r\n\r\n")

/-- C1 counterexample: the response bytes `bareHead ++ [104]` split into the
two non-empty chunks `[bareHead, [104]]` produce an outcome with empty
`data_after_handshake` (the receiver returns after the first read, before
the trailing byte is ever delivered), while the single-read delivery
produces `[104]` — the two `HandshakeOutcome`s are not identical. -/
theorem receive_response_fragmentation_counterexample :
    successData (receive_response 2 [bareHead, [104]]) = some [] ∧
    successData (receive_response 2 [bareHead ++ [104]]) = some [104] :=
  ⟨rfl, rfl⟩

/-- C1 (amended): splitting response bytes holding a complete head across
any number of non-empty read chunks yields a successful outcome with
`ResponseParts` identical to the single-read case; `data_after_handshake`
is the prefix of the single-read leftover that had been delivered by the
completing read, and concatenating it with the chunks the receiver never
read recovers the single-read leftover exactly. -/
theorem receive_response_fragmentation
    (full : List Byte) (chunks : List Chunk) (c : Nat) (r : HttparseResponse)
    (hfull : tokenize 16 full = Except.ok (TokenizeOk.complete c r))
    (hchunks : chunks.flatten = full)
    (hne : ∀ ch ∈ chunks, ch ≠ []) :
    ∃ (p : ResponseParts) (data : List Byte) (rest : List Chunk),
      receive_response chunks.length [full] =
        some (RunResult.success ⟨p, full.drop c⟩ []) ∧
      receive_response chunks.length chunks = some (RunResult.success ⟨p, data⟩ rest) ∧
      data ++ rest.flatten = full.drop c := by
  obtain ⟨code, reason, hcode, hreason, hps, _⟩ := tokenize_complete_parts hfull
  obtain ⟨h4, hcle⟩ := tokenize_complete_bounds hfull
  have hsingle : receive_response chunks.length [full] =
      some (RunResult.success ⟨⟨code, reason, r.headers⟩, full.drop c⟩ []) := by
    simp [receive_response, readOnce, hfull, HandshakeOutcome.new, hps]
  refine ⟨⟨code, reason, r.headers⟩, ?_⟩
  cases chunks with
  | nil =>
    exfalso
    simp only [List.flatten_nil] at hchunks
    rw [← hchunks] at hcle
    simp at hcle
    omega
  | cons ch rest =>
    have hfl : ch ++ rest.flatten = full := by
      simpa using hchunks
    have hch : full.take ch.length = ch := by
      rw [← hfl]
      exact List.take_left _ _
    by_cases hlen : ch.length < c
    · have htok : tokenize 16 ch = Except.ok TokenizeOk.incomplete := by
        have := tokenize_take_incomplete hfull hlen
        rwa [hch] at this
      obtain ⟨data, rest₂, hrun, hdata⟩ :=
        receiveLoop_frag full c r ⟨code, reason, r.headers⟩ hfull hps rest
          (ch :: rest).length ch (by simp) hfl hlen
      refine ⟨data, rest₂, hsingle, ?_, hdata⟩
      have hstep : receive_response (ch :: rest).length (ch :: rest) =
          receiveLoop (ch :: rest).length rest ch := by
        simp [receive_response, readOnce, htok]
      rw [hstep]
      exact hrun
    · push_neg at hlen
      have htok : tokenize 16 ch = Except.ok (TokenizeOk.complete c r) := by
        have := tokenize_take_complete hfull hlen
        rwa [hch] at this
      refine ⟨ch.drop c, rest, hsingle, ?_, ?_⟩
      · simp [receive_response, readOnce, htok, HandshakeOutcome.new, hps]
      · have : full.drop c = ch.drop c ++ rest.flatten := by
          rw [← hfl]
          exact List.drop_append_of_le_length hlen
        exact this.symm

theorem receive_response_fragmentation_witness :
    ∃ (p : ResponseParts) (data : List Byte) (rest : List Chunk),
      receive_response 2 [asciiBytes ("HTTP/1.1 200 OK\r\n\r\nab")] =
        some (RunResult.success ⟨p, asciiBytes ("ab")⟩ []) ∧
      receive_response 2 [asciiBytes ("HTTP/1.1 2"), asciiBytes ("00 OK\r\n\r\nab")] =
        some (RunResult.success ⟨p, data⟩ rest) ∧
      data ++ rest.flatten = asciiBytes ("ab") :=
  receive_response_fragmentation (asciiBytes ("HTTP/1.1 200 OK\r\n\r\nab"))
    [asciiBytes ("HTTP/1.1 2"), asciiBytes ("00 OK\r\n\r\nab")] 19
    ⟨some 200, some (asciiBytes ("OK")), []⟩ rfl (by decide) (by decide)

/-! ## Claim theorems: request encoder -/

theorem write_headers_flatten (headers : HeaderMap) :
    Request.write_headers headers =
      (headers.map (fun nv => nv.1 ++ [58, 32] ++ nv.2 ++ [13, 10])).flatten := by
  have general : ∀ (hs : HeaderMap) (acc : List Byte),
      hs.foldl (fun acc nv => acc ++ nv.1 ++ [58, 32] ++ nv.2 ++ [13, 10]) acc =
        acc ++ (hs.map (fun nv => nv.1 ++ [58, 32] ++ nv.2 ++ [13, 10])).flatten := by
    intro hs
    induction hs with
    | nil => intro acc; simp
    | cons nv tl ih =>
      intro acc
      rw [List.foldl_cons, ih]
      simp [List.append_assoc]
  simpa [Request.write_headers] using general headers []

/-- C3: the bytes `send_request` writes to the transport are exactly the
literal CONNECT template of the specification — request line, Host line,
then each supplied header name and value byte for byte in collection
order, then the blank line — assembled in one buffer and written in a
single write-all call. -/
theorem send_request_matches_template (stream : InnerStream) (host : List Byte) (port : Nat)
    (headers : HeaderMap) :
    send_request stream host port headers =
      { stream with written := stream.written ++ specConnectRequest host port headers } ∧
    Request.write host port headers = specConnectRequest host port headers := by
  have hw : Request.write host port headers = specConnectRequest host port headers := by
    unfold Request.write specConnectRequest Request.write_host_port
    rw [write_headers_flatten]
    have h1 : asciiBytes (" HTTP/1.1\r\n") = asciiBytes (" HTTP/1.1") ++ [13, 10] := by decide
    have h2 : asciiBytes ("\r\n") = ([13, 10] : List Byte) := by decide
    rw [h1, h2]
    simp [List.append_assoc]
  refine ⟨?_, hw⟩
  simp [send_request, InnerStream.write, hw]

/-! ## Claim theorems: replay stream -/

/-- C6: decomposing a replay stream returns the inner stream unchanged
together with the leftover cursor; the unread bytes of the returned
cursor are exactly the pending prepend data — whatever remains before
exhaustion, and the empty (or absent, in the plain shape) leftover once
fully drained. -/
theorem into_inner_returns_leftover (ps : PrependIoStream) :
    (ps.into_inner).1 = ps.innerStream ∧
    cursorRemaining (ps.into_inner).2 = ps.pending_prepend_data := by
  cases ps <;>
    simp [PrependIoStream.into_inner, PrependIoStream.innerStream,
      PrependIoStream.pending_prepend_data, cursorRemaining]

/-- C9: every write call, in both the replaying and the plain shape,
forwards the supplied bytes unmodified to the inner stream (they are
appended to its write log, and the count returned is the full length),
reads nothing from the inner stream, and leaves the leftover cursor —
contents and read position — untouched. -/
theorem poll_write_passthrough (ps : PrependIoStream) (buf : List Byte) :
    (ps.poll_write buf).1 = buf.length ∧
    ((ps.poll_write buf).2).innerStream.written = ps.innerStream.written ++ buf ∧
    ((ps.poll_write buf).2).innerStream.toRead = ps.innerStream.toRead ∧
    ((ps.poll_write buf).2).into_inner.2 = ps.into_inner.2 := by
  cases ps <;>
    simp [PrependIoStream.poll_write, PrependIoStream.innerStream,
      PrependIoStream.into_inner, InnerStream.write]

/-- C5: while the leftover cursor still holds unread bytes, a read returns
`min(requested, remaining)` bytes from the cursor (the `take` of the
remaining bytes), advances only the cursor position, and leaves the inner
stream untouched; once the leftover is exhausted, every read observably
behaves as a read of the inner stream itself, and the leftover stays
exhausted — the transition is one-directional and permanent. -/
theorem poll_read_replay_then_forward :
    (∀ (st : ChainState) (n : Nat),
       st.doneFirst = false → st.first.remaining ≠ [] →
       PrependIoStream.poll_read (PrependIoStream.chain st) n =
         (st.first.remaining.take n,
          PrependIoStream.chain
            ⟨⟨st.first.data, st.first.pos + min n st.first.remaining.length⟩,
             false, st.second⟩)) ∧
    (∀ (ps : PrependIoStream) (n : Nat),
       ps.pending_prepend_data = [] →
       (ps.poll_read n).1 = (ps.innerStream.read n).1 ∧
       ((ps.poll_read n).2).innerStream = (ps.innerStream.read n).2 ∧
       ((ps.poll_read n).2).pending_prepend_data = []) := by
  constructor
  · intro st n hdf hne
    obtain ⟨⟨d, pos⟩, df, sec⟩ := st
    simp only at hdf
    subst hdf
    have hlen : (⟨d, pos⟩ : Cursor).remaining.length ≠ 0 := by
      simpa [List.length_eq_zero] using hne
    have hcond : ¬ (n ⊓ (⟨d, pos⟩ : Cursor).remaining.length = 0 ∧ n ≠ 0) := by
      rintro ⟨h0, hn⟩
      rcases Nat.min_eq_zero_iff.mp h0 with h | h
      · exact hn h
      · exact hlen h
    simp only [PrependIoStream.poll_read, ChainState.read, Cursor.read, Bool.false_eq_true,
      if_false, List.length_take, hcond, if_neg]
  · intro ps n hpend
    cases ps with
    | plain s =>
      simp [PrependIoStream.poll_read, PrependIoStream.innerStream,
        PrependIoStream.pending_prepend_data]
    | chain st =>
      obtain ⟨⟨d, pos⟩, df, sec⟩ := st
      simp only [PrependIoStream.pending_prepend_data] at hpend
      have hle : d.length ≤ pos := by
        have hdrop : List.drop pos d = [] := hpend
        exact List.drop_eq_nil_iff.mp hdrop
      have hz : d.length - pos = 0 := by omega
      cases df with
      | true =>
        refine ⟨?_, ?_, ?_⟩ <;>
          simp [PrependIoStream.poll_read, ChainState.read, PrependIoStream.innerStream,
            PrependIoStream.pending_prepend_data, InnerStream.read, Cursor.remaining,
            hle, hz]
      | false =>
        by_cases hn : n = 0
        · subst hn
          refine ⟨?_, ?_, ?_⟩ <;>
            simp [PrependIoStream.poll_read, ChainState.read, Cursor.read,
              PrependIoStream.innerStream, PrependIoStream.pending_prepend_data,
              InnerStream.read, Cursor.remaining, hle, hz]
        · refine ⟨?_, ?_, ?_⟩ <;>
            simp [PrependIoStream.poll_read, ChainState.read, Cursor.read,
              PrependIoStream.innerStream, PrependIoStream.pending_prepend_data,
              InnerStream.read, Cursor.remaining, hle, hz, hn]

theorem poll_read_replay_then_forward_witness :
    (PrependIoStream.poll_read
        (PrependIoStream.chain ⟨⟨[50, 60], 0⟩, false, ⟨[1, 2], []⟩⟩) 1 =
      ([50], PrependIoStream.chain ⟨⟨[50, 60], 1⟩, false, ⟨[1, 2], []⟩⟩)) ∧
    ((PrependIoStream.poll_read (PrependIoStream.plain ⟨[7, 8], []⟩) 1).1 = [7]) :=
  ⟨poll_read_replay_then_forward.1 ⟨⟨[50, 60], 0⟩, false, ⟨[1, 2], []⟩⟩ 1 rfl (by decide),
   by
     have h := (poll_read_replay_then_forward.2 (PrependIoStream.plain ⟨[7, 8], []⟩) 1 rfl).1
     simpa using h⟩
